import Mathlib

/-!
Verification of the Task Scheduling & Analysis Engine of `task_remainder.py`.

Timestamps (`start_time`, `end_time`, `deadline`) are modelled as whole
seconds (`Nat`) since the datetime origin; Python's `datetime` values are
totally ordered and non-negative, and every boundary in the specification is
expressed in whole seconds, so second granularity is faithful.  `timedelta`
differences are modelled as `Int` (they may be negative).
-/

namespace TaskRemainder

/-- The `Task` dataclass of `task_remainder.py` (lines 9–27). -/
structure Task where
  name : String
  task_type : String
  priority : Int
  start_time : Nat
  end_time : Nat
  deadline : Nat
deriving DecidableEq, Repr

/-- `Task.__lt__` (line 23–27): tasks compare by `end_time` only. -/
def Task.lt (a b : Task) : Prop :=
  a.end_time < b.end_time

instance : DecidableRel Task.lt := fun a b => Nat.decLt a.end_time b.end_time

/-- Rounding of `(end - start).total_seconds() / 3600` by Python's `round`,
which rounds exact halves to the nearest even integer (the quotient
`seconds / 3600` is computed exactly here; at the only tie points, multiples
of 1800 seconds, the float quotient is exactly representable, so Python's
float `round` agrees with exact round-half-to-even). -/
def roundHours (seconds : Nat) : Nat :=
  let q := seconds / 3600
  let r := seconds % 3600
  if r < 1800 then q
  else if 1800 < r then q + 1
  else if q % 2 = 0 then q else q + 1

/-- `round((task.end_time - task.start_time).total_seconds() / 3600)`
(line 35).  Callers must guarantee `start_time < end_time` (spec §3), so the
truncated `Nat` subtraction agrees with Python's signed difference on every
input covered by the specification. -/
def duration (t : Task) : Nat :=
  roundHours (t.end_time - t.start_time)

/-- One pass of the knapsack inner loop (lines 36–37):
`for i in range(max_time, duration - 1, -1): dp[i] = max(dp[i], dp[i - duration] + priority)`.
The loop walks capacities downward, so `dp[i - duration]` is still the value
from before this task's pass; the in-place update is therefore the pure
update below (for `duration = 0` both read and write hit the same cell once,
which the single `max` also captures). -/
def stepTask (dp : Nat → Int) (w : Nat) (p : Int) : Nat → Int :=
  fun i => if w ≤ i then max (dp i) (dp (i - w) + p) else dp i

/-- The dp array after processing a list of tasks, starting from the all-zero
array `[0] * (max_time + 1)` (line 33); capacities above `max_time` are never
read when the result is taken at `max_time`. -/
def dpArray (tasks : List Task) : Nat → Int :=
  tasks.foldl (fun dp t => stepTask dp (duration t) t.priority) (fun _ => 0)

/-- `tasks.sort(key=lambda x: x.end_time)` (line 32): Python's `list.sort` is
a stable sort, whose result is the (unique) stable ordering by the key; it is
modelled by insertion sort with the reflexive key order. -/
def sortByEndTime (tasks : List Task) : List Task :=
  tasks.insertionSort (fun a b => a.end_time ≤ b.end_time)

/-- `schedule_tasks` (lines 30–38).  The first component is the state of the
caller's list after the call (the in-place sort on line 32 reorders it); the
second is the returned `dp[max_time]`. -/
def schedule_tasks (tasks : List Task) (max_time : Nat) : List Task × Int :=
  let sorted := sortByEndTime tasks
  (sorted, dpArray sorted max_time)

/-- `sort_tasks` (lines 41–51): dispatches on the `by` string; each branch is
Python's stable in-place sort by the given key (`reverse=True` for priority,
which is the stable descending order), and an unknown key leaves the list
unchanged.  The returned list is also the post-call state of the caller's
list. -/
def sort_tasks (tasks : List Task) (key : String) : List Task :=
  if key = "priority" then tasks.insertionSort (fun a b => b.priority ≤ a.priority)
  else if key = "start_time" then tasks.insertionSort (fun a b => a.start_time ≤ b.start_time)
  else if key = "end_time" then tasks.insertionSort (fun a b => a.end_time ≤ b.end_time)
  else if key = "task_type" then tasks.insertionSort (fun a b => a.task_type ≤ b.task_type)
  else tasks

/-- Sorting a list of `Task`s with Python's default comparisons uses
`Task.__lt__` only: the stable ascending order with respect to `Task.lt`
(the spec's `natural_end_time` ordering). -/
def sortNatural (tasks : List Task) : List Task :=
  tasks.insertionSort (fun a b => ¬ Task.lt b a)

/-- The messages produced by `check_for_reminders`; the two f-strings of
lines 81 and 83 are injective in the task name, so they are modelled as a
tagged type. -/
inductive Reminder where
  | approaching (name : String)
  | missed (name : String)
deriving DecidableEq, Repr

/-- `check_for_reminders` (lines 75–84): one pass over the tasks in input
order, appending at most one message per task; `timedelta(minutes=0) <=
delta <= timedelta(hours=1)` is `0 ≤ delta ≤ 3600` seconds, inclusive. -/
def check_for_reminders (tasks : List Task) (current_time : Nat) : List Reminder :=
  tasks.foldl (fun reminders t =>
    let delta : Int := (t.deadline : Int) - (current_time : Int)
    if 0 ≤ delta ∧ delta ≤ 3600 then reminders ++ [Reminder.approaching t.name]
    else if delta < 0 then reminders ++ [Reminder.missed t.name]
    else reminders) []

/-- The bucket of a timestamp (line 95):
`start.replace(second=0, microsecond=0, minute=(start.minute // I) * I)`,
i.e. zero the seconds and truncate the minute-of-hour to a multiple of `I`. -/
def bucketOf (I : Nat) (t : Nat) : Nat :=
  t - t % 60 - 60 * (t / 60 % 60 % I)

/-- `time_slots[rounded_time] = time_slots.get(rounded_time, 0) + 1`
(line 96) on an insertion-ordered table: a present key is incremented in
place (keeping its position, as Python dicts do), an absent key is appended
with count 1. -/
def bumpSlot : List (Nat × Nat) → Nat → List (Nat × Nat)
  | [], k => [(k, 1)]
  | (k', c) :: rest, k =>
      if k' = k then (k', c + 1) :: rest else (k', c) :: bumpSlot rest k

/-- The `while start < end` loop of lines 93–97 for one task, with explicit
fuel.  Each iteration advances `start` by `60 * I` seconds, so for `I ≥ 1`
the loop runs at most `e - s` times and fuel `e - s` (see `walkTask`) never
runs out; for `I = 0` the Python loop diverges, which no claim covers. -/
def walkAux (I : Nat) : Nat → Nat → Nat → List (Nat × Nat) → List (Nat × Nat)
  | 0, _, _, slots => slots
  | fuel + 1, s, e, slots =>
      if s < e ∧ 0 < I then
        walkAux I fuel (s + 60 * I) e (bumpSlot slots (bucketOf I s))
      else slots

/-- The per-task slot walk of lines 90–97. -/
def walkTask (I : Nat) (s e : Nat) (slots : List (Nat × Nat)) : List (Nat × Nat) :=
  walkAux I (e - s) s e slots

/-- The `time_slots` dictionary built by lines 89–97, as an insertion-ordered
association list. -/
def busySlotsTable (tasks : List Task) (I : Nat) : List (Nat × Nat) :=
  tasks.foldl (fun acc t => walkTask I t.start_time t.end_time acc) []

/-- `max(time_slots, key=time_slots.get)` (line 100): scan the keys in
insertion order, replacing the champion only on a strictly greater count, so
the first maximal entry wins. -/
def maxScan (best : Nat × Nat) : List (Nat × Nat) → Nat × Nat
  | [] => best
  | kv :: rest => maxScan (if best.2 < kv.2 then kv else best) rest

/-- `analyze_busy_slots` (lines 87–101).  On an empty table `max` raises
`ValueError` (the explicit failure of spec §7), modelled as `none`. -/
def analyze_busy_slots (tasks : List Task) (time_interval : Nat) : Option (Nat × Nat) :=
  match busySlotsTable tasks time_interval with
  | [] => none
  | kv :: rest => some (maxScan kv rest)

/-- Modelled from the spec: the Locator component (spec §4.5) is described by
the specification but absent from `src/` (only GUI code accompanies the
core there); `find_by_name` performs a case-insensitive exact match on
`name` and returns the first match in input order, or an absent value. -/
def lowerName (s : String) : String :=
  String.mk (s.data.map Char.toLower)

/-- Modelled from the spec: the match predicate of the Locator's
`find_by_name` — case-insensitive exact equality of names. -/
def nameMatches (query : String) (t : Task) : Bool :=
  lowerName t.name == lowerName query

/-- Modelled from the spec: `find_by_name(tasks, name) -> Task?` (spec §4.5),
first case-insensitive match in input order, `none` when absent. -/
def find_by_name (tasks : List Task) (name : String) : Option Task :=
  tasks.find? (nameMatches name)

/-- The spec's classification rule for the Deadline Monitor (§4.3), stated
per task exactly as the spec words it: `delta = deadline − now`; if
`0 ≤ delta ≤ 1 hour` → Approaching, if `delta < 0` → Missed, otherwise no
message. -/
def classifySpec (now : Nat) (t : Task) : Option Reminder :=
  let delta : Int := (t.deadline : Int) - (now : Int)
  if 0 ≤ delta ∧ delta ≤ 3600 then some (Reminder.approaching t.name)
  else if delta < 0 then some (Reminder.missed t.name)
  else none

/-- The sort keys named by the specification (§4.1). -/
inductive KeyKind where
  | priority_desc
  | start_time_asc
  | end_time_asc
  | task_type_asc
  | natural_end_time
deriving DecidableEq, Repr

/-- The Sorter's dispatch from the spec's `KeyKind` to the source operations:
the four string keys of `sort_tasks`, and the intrinsic `Task.__lt__`
ordering for `natural_end_time`. -/
def sortByKind (tasks : List Task) : KeyKind → List Task
  | .priority_desc => sort_tasks tasks "priority"
  | .start_time_asc => sort_tasks tasks "start_time"
  | .end_time_asc => sort_tasks tasks "end_time"
  | .task_type_asc => sort_tasks tasks "task_type"
  | .natural_end_time => sortNatural tasks

/-- The order each `KeyKind` sorts by: descending priority for
`priority_desc`, ascending for the rest, `end_time` for `natural_end_time`. -/
def keyRel : KeyKind → Task → Task → Prop
  | .priority_desc => fun a b => b.priority ≤ a.priority
  | .start_time_asc => fun a b => a.start_time ≤ b.start_time
  | .end_time_asc => fun a b => a.end_time ≤ b.end_time
  | .task_type_asc => fun a b => a.task_type ≤ b.task_type
  | .natural_end_time => fun a b => a.end_time ≤ b.end_time

/-- Equality of sort keys, used to state stability: two tasks tie for a
`KeyKind` exactly when the corresponding field values are equal. -/
def keyEq : KeyKind → Task → Task → Bool
  | .priority_desc, a, b => a.priority == b.priority
  | .start_time_asc, a, b => a.start_time == b.start_time
  | .end_time_asc, a, b => a.end_time == b.end_time
  | .task_type_asc, a, b => a.task_type == b.task_type
  | .natural_end_time, a, b => a.end_time == b.end_time

/-- Total rounded duration of a selection of tasks, in whole hours. -/
def totalDuration (S : List Task) : Nat :=
  (S.map duration).sum

/-- Total priority of a selection of tasks. -/
def totalPriority (S : List Task) : Int :=
  (S.map Task.priority).sum

/-- The achievable priority sums of the 0/1 knapsack over `tasks` with
capacity `B`: each task usable at most once (selections are sublists), the
empty selection allowed. -/
def knapSet (tasks : List Task) (B : Nat) : Set Int :=
  {v | ∃ S, S.Sublist tasks ∧ totalDuration S ≤ B ∧ totalPriority S = v}

/-! ### Knapsack correctness of the Scheduler -/

lemma totalDuration_nil : totalDuration [] = 0 := rfl

lemma totalPriority_nil : totalPriority [] = 0 := rfl

lemma totalDuration_append (S T : List Task) :
    totalDuration (S ++ T) = totalDuration S + totalDuration T := by
  simp [totalDuration]

lemma totalPriority_append (S T : List Task) :
    totalPriority (S ++ T) = totalPriority S + totalPriority T := by
  simp [totalPriority]

lemma totalDuration_single (t : Task) : totalDuration [t] = duration t := by
  simp [totalDuration]

lemma totalPriority_single (t : Task) : totalPriority [t] = t.priority := by
  simp [totalPriority]

lemma knap_zero (j : Nat) : IsGreatest (knapSet [] j) 0 := by
  constructor
  · exact ⟨[], List.Sublist.refl _, by simp [totalDuration_nil], totalPriority_nil⟩
  · rintro v ⟨S, hS, -, rfl⟩
    have hS0 : S = [] := List.sublist_nil.mp hS
    simp [hS0, totalPriority_nil]

lemma step_greatest {m : List Task} {d : Nat → Int} (t : Task)
    (h : ∀ j, IsGreatest (knapSet m j) (d j)) :
    ∀ j, IsGreatest (knapSet (m ++ [t]) j) (stepTask d (duration t) t.priority j) := by
  intro j
  unfold stepTask
  by_cases hw : duration t ≤ j
  · rw [if_pos hw]
    constructor
    · rcases max_cases (d j) (d (j - duration t) + t.priority) with ⟨hm, -⟩ | ⟨hm, -⟩
      · rw [hm]
        rcases (h j).1 with ⟨S, hS, hd, hp⟩
        exact ⟨S, hS.trans (List.sublist_append_left m [t]), hd, hp⟩
      · rw [hm]
        rcases (h (j - duration t)).1 with ⟨S, hS, hd, hp⟩
        refine ⟨S ++ [t], hS.append (List.Sublist.refl [t]), ?_, ?_⟩
        · rw [totalDuration_append, totalDuration_single]
          omega
        · rw [totalPriority_append, totalPriority_single, hp]
    · rintro v ⟨S, hS, hd, rfl⟩
      rcases List.sublist_append_iff.mp hS with ⟨S₁, S₂, rfl, h₁, h₂⟩
      rcases List.sublist_singleton.mp h₂ with rfl | rfl
      · rw [List.append_nil] at hd ⊢
        exact le_trans ((h j).2 ⟨S₁, h₁, hd, rfl⟩) (le_max_left _ _)
      · rw [totalDuration_append, totalDuration_single] at hd
        rw [totalPriority_append, totalPriority_single]
        have hd₁ : totalDuration S₁ ≤ j - duration t := by omega
        have := (h (j - duration t)).2 ⟨S₁, h₁, hd₁, rfl⟩
        exact le_trans (add_le_add_right this t.priority) (le_max_right _ _)
  · rw [if_neg hw]
    constructor
    · rcases (h j).1 with ⟨S, hS, hd, hp⟩
      exact ⟨S, hS.trans (List.sublist_append_left m [t]), hd, hp⟩
    · rintro v ⟨S, hS, hd, rfl⟩
      rcases List.sublist_append_iff.mp hS with ⟨S₁, S₂, rfl, h₁, h₂⟩
      rcases List.sublist_singleton.mp h₂ with rfl | rfl
      · rw [List.append_nil] at hd ⊢
        exact (h j).2 ⟨S₁, h₁, hd, rfl⟩
      · rw [totalDuration_append, totalDuration_single] at hd
        exact (hw (le_trans (Nat.le_add_left _ _) hd)).elim

lemma foldl_greatest :
    ∀ (l m : List Task) (d : Nat → Int),
      (∀ j, IsGreatest (knapSet m j) (d j)) →
      ∀ j, IsGreatest (knapSet (m ++ l) j)
        ((l.foldl (fun dp t => stepTask dp (duration t) t.priority) d) j) := by
  intro l
  induction l with
  | nil =>
      intro m d h j
      simpa using h j
  | cons t l ih =>
      intro m d h j
      have h' := step_greatest t h
      have hmain := ih (m ++ [t]) _ h' j
      simpa [List.append_assoc] using hmain

lemma knapSet_mono_perm {l₁ l₂ : List Task} (h : l₁.Perm l₂) (B : Nat) :
    knapSet l₁ B ⊆ knapSet l₂ B := by
  rintro v ⟨S, hS, hd, rfl⟩
  have hsub : List.Subperm S l₂ := h.subperm_left.mp hS.subperm
  rcases hsub with ⟨S', hperm, hS'⟩
  have hdur : totalDuration S' = totalDuration S := (hperm.map duration).sum_eq
  have hpri : totalPriority S' = totalPriority S := (hperm.map Task.priority).sum_eq
  exact ⟨S', hS', by omega, hpri⟩

lemma knapSet_perm {l₁ l₂ : List Task} (h : l₁.Perm l₂) (B : Nat) :
    knapSet l₁ B = knapSet l₂ B :=
  Set.Subset.antisymm (knapSet_mono_perm h B) (knapSet_mono_perm h.symm B)

lemma schedule_knap (tasks : List Task) (B : Nat) :
    IsGreatest (knapSet tasks B) ((schedule_tasks tasks B).2) := by
  have h0 : ∀ j, IsGreatest (knapSet ([] : List Task) j) ((fun _ => (0 : Int)) j) :=
    fun j => knap_zero j
  have hmain := foldl_greatest (sortByEndTime tasks) [] _ h0 B
  rw [List.nil_append] at hmain
  have hperm : (sortByEndTime tasks).Perm tasks := List.perm_insertionSort _ tasks
  rw [knapSet_perm hperm B] at hmain
  exact hmain

/-- C1: for every list of tasks with `start_time < end_time` and every
budget `B ≥ 0`, `schedule_tasks` returns the maximum over all subsets
(sublists; each task usable at most once, the empty subset allowed) of the
sum of priorities, subject to the sum of rounded durations not exceeding
`B`; an empty input yields 0. -/
theorem C1_schedule_tasks_knapsack (tasks : List Task) (B : Nat)
    (_hwf : ∀ t ∈ tasks, t.start_time < t.end_time) :
    IsGreatest (knapSet tasks B) ((schedule_tasks tasks B).2) ∧
    (schedule_tasks ([] : List Task) B).2 = 0 :=
  ⟨schedule_knap tasks B, rfl⟩

/-- A concrete task of priority 4 whose 5400-second window rounds to 2 hours. -/
def wTask : Task := ⟨"w", "Personal", 4, 0, 5400, 0⟩

/-- Witness for C1 at a concrete input. -/
theorem C1_schedule_tasks_knapsack_witness :
    IsGreatest (knapSet [wTask] 2) ((schedule_tasks [wTask] 2).2) ∧
    (schedule_tasks ([] : List Task) 2).2 = 0 :=
  C1_schedule_tasks_knapsack [wTask] 2 (by decide)

/-! ### Concrete scheduler checks (C2), mutation of the caller's list (C3),
and the priority upper bound (C5) -/

/-- Rounded duration 2 hours, priority 3 (the spec's concrete check). -/
def c2TaskA : Task := ⟨"A", "Personal", 3, 0, 7200, 0⟩

/-- Rounded duration 3 hours, priority 5 (the spec's concrete check). -/
def c2TaskB : Task := ⟨"B", "Academic", 5, 0, 10800, 0⟩

/-- Rounded duration 1 hour, priority 2 (the spec's concrete check). -/
def c2TaskC : Task := ⟨"C", "Personal", 2, 0, 3600, 0⟩

/-- C2 counterexample: with rounded durations `[2, 3, 1]` and priorities
`[3, 5, 2]`, the code returns 5 at budget 3 but 7 at budget 4 (selecting the
3-hour and 1-hour tasks, priorities 5 + 2), so the claimed pair of results
(5 and 5) is false. -/
theorem C2_counterexample :
    ([c2TaskA, c2TaskB, c2TaskC].map duration = [2, 3, 1]) ∧
    ([c2TaskA, c2TaskB, c2TaskC].map Task.priority = [3, 5, 2]) ∧
    ¬ ((schedule_tasks [c2TaskA, c2TaskB, c2TaskC] 3).2 = 5 ∧
       (schedule_tasks [c2TaskA, c2TaskB, c2TaskC] 4).2 = 5) := by
  decide

/-- C2 amended: on the spec's concrete input, `schedule_tasks` returns 5
with budget 3 and 7 with budget 4. -/
theorem C2_amended_concrete_values :
    (schedule_tasks [c2TaskA, c2TaskB, c2TaskC] 3).2 = 5 ∧
    (schedule_tasks [c2TaskA, c2TaskB, c2TaskC] 4).2 = 7 := by
  decide

/-- C3 counterexample: `schedule_tasks` sorts the caller's list in place by
`end_time` (line 32), so a list given in non-sorted order is reordered by
the call: the post-call state differs from the input. -/
theorem C3_counterexample :
    ¬ ((schedule_tasks [c2TaskB, c2TaskA] 0).1 = [c2TaskB, c2TaskA]) := by
  decide

/-- C3 amended: `check_for_reminders` and `analyze_busy_slots` are read-only,
but `schedule_tasks` and `sort_tasks` sort the caller's list in place; what
every operation preserves is the multiset of tasks — the post-call list is a
permutation of the input (for the natural `Task.__lt__` ordering as well). -/
theorem C3_amended_permutation_preserved :
    ∀ (tasks : List Task) (B : Nat) (key : String),
      ((schedule_tasks tasks B).1).Perm tasks ∧
      (sort_tasks tasks key).Perm tasks ∧
      (sortNatural tasks).Perm tasks := by
  intro tasks B key
  refine ⟨List.perm_insertionSort _ tasks, ?_, List.perm_insertionSort _ tasks⟩
  unfold sort_tasks
  split_ifs <;> first
    | exact List.perm_insertionSort _ tasks
    | exact List.Perm.refl tasks

/-- A task with negative priority and rounded duration 1 hour. -/
def negTask : Task := ⟨"n", "Personal", -1, 0, 3600, 0⟩

/-- C5 counterexample: priorities may be negative (spec §3) and the DP never
selects a losing task, so on a single task of priority `-1` the result is 0,
which exceeds the sum `-1` of all priorities — the claimed bound fails. -/
theorem C5_counterexample :
    ¬ ((schedule_tasks [negTask] 1).2 ≤ ([negTask].map Task.priority).sum) := by
  decide

/-- C5 amended: for every list of tasks and every budget, the scheduler's
result is at most the sum of the nonnegative parts `max(priority, 0)` of all
priorities (which coincides with the sum of priorities whenever none is
negative). -/
theorem C5_amended_upper_bound :
    ∀ (tasks : List Task) (B : Nat),
      (schedule_tasks tasks B).2 ≤ (tasks.map (fun t => max t.priority 0)).sum := by
  intro tasks B
  rcases (schedule_knap tasks B).1 with ⟨S, hS, -, hval⟩
  have h1 : totalPriority S ≤ (S.map (fun t => max t.priority 0)).sum :=
    List.sum_le_sum (fun t _ => le_max_left t.priority 0)
  have h2 : (S.map (fun t => max t.priority 0)).sum ≤
      (tasks.map (fun t => max t.priority 0)).sum := by
    refine List.Sublist.sum_le_sum (hS.map _) ?_
    intro a ha
    rcases List.mem_map.mp ha with ⟨t, -, rfl⟩
    exact le_max_right t.priority 0
  calc (schedule_tasks tasks B).2 = totalPriority S := hval.symm
    _ ≤ (S.map (fun t => max t.priority 0)).sum := h1
    _ ≤ (tasks.map (fun t => max t.priority 0)).sum := h2

/-! ### The Sorter: permutation, sortedness and stability (C6) -/

lemma sort_tasks_priority (tasks : List Task) :
    sort_tasks tasks "priority" = tasks.insertionSort (fun a b => b.priority ≤ a.priority) := rfl

lemma sort_tasks_start_time (tasks : List Task) :
    sort_tasks tasks "start_time" =
      tasks.insertionSort (fun a b => a.start_time ≤ b.start_time) := rfl

lemma sort_tasks_end_time (tasks : List Task) :
    sort_tasks tasks "end_time" = tasks.insertionSort (fun a b => a.end_time ≤ b.end_time) := rfl

lemma sort_tasks_task_type (tasks : List Task) :
    sort_tasks tasks "task_type" =
      tasks.insertionSort (fun a b => a.task_type ≤ b.task_type) := rfl

lemma filter_orderedInsert (r : Task → Task → Prop) [DecidableRel r] (p : Task → Bool)
    (a : Task) (l : List Task) (hcomp : ∀ b, p a = true → p b = true → r a b) :
    (l.orderedInsert r a).filter p =
      if p a = true then a :: l.filter p else l.filter p := by
  induction l with
  | nil =>
      cases hpa : p a <;> simp [List.orderedInsert, List.filter, hpa]
  | cons b l ih =>
      rw [List.orderedInsert]
      by_cases hr : r a b
      · rw [if_pos hr]
        cases hpa : p a <;> simp [List.filter_cons, hpa]
      · rw [if_neg hr]
        cases hpa : p a with
        | true =>
            have hpb : p b = false := by
              cases hpb : p b
              · rfl
              · exact absurd (hcomp b hpa hpb) hr
            simp [List.filter_cons, hpb, ih, hpa]
        | false =>
            cases hpb : p b <;> simp [List.filter_cons, hpb, ih, hpa]

lemma filter_insertionSort (r : Task → Task → Prop) [DecidableRel r] (p : Task → Bool)
    (hcomp : ∀ a b, p a = true → p b = true → r a b) :
    ∀ l : List Task, (l.insertionSort r).filter p = l.filter p := by
  intro l
  induction l with
  | nil => rfl
  | cons a l ih =>
      rw [List.insertionSort, filter_orderedInsert r p a _ (hcomp a)]
      cases hpa : p a <;> simp [List.filter_cons, hpa, ih]

lemma sorted_insertionSort' (r : Task → Task → Prop) [DecidableRel r]
    (htot : ∀ a b, r a b ∨ r b a) (htrans : ∀ a b c, r a b → r b c → r a c)
    (l : List Task) : List.Sorted r (l.insertionSort r) := by
  haveI : IsTotal Task r := ⟨htot⟩
  haveI : IsTrans Task r := ⟨htrans⟩
  exact List.sorted_insertionSort r l

/-- C6: every `KeyKind` of the Sorter returns a permutation of the input,
sorted by the kind's order (descending priority for `priority_desc`,
ascending for the others, `end_time` for `natural_end_time`), and stably:
the tasks tying with any given task on the sort key appear in the same
order as in the input. -/
theorem C6_sorter_stable_sorted_perm :
    ∀ (k : KeyKind) (tasks : List Task),
      (sortByKind tasks k).Perm tasks ∧
      List.Sorted (keyRel k) (sortByKind tasks k) ∧
      ∀ t : Task, (sortByKind tasks k).filter (keyEq k t) = tasks.filter (keyEq k t) := by
  intro k tasks
  cases k with
  | priority_desc =>
      simp only [sortByKind, sort_tasks_priority, keyRel]
      refine ⟨List.perm_insertionSort _ tasks, ?_, ?_⟩
      · exact sorted_insertionSort' _ (fun a b => le_total b.priority a.priority)
          (fun _ _ _ h1 h2 => le_trans h2 h1) tasks
      · intro t
        refine filter_insertionSort _ _ ?_ tasks
        intro a b hpa hpb
        simp only [keyEq, beq_iff_eq] at hpa hpb
        exact le_of_eq (hpb.symm.trans hpa)
  | start_time_asc =>
      simp only [sortByKind, sort_tasks_start_time, keyRel]
      refine ⟨List.perm_insertionSort _ tasks, ?_, ?_⟩
      · exact sorted_insertionSort' _ (fun a b => le_total a.start_time b.start_time)
          (fun _ _ _ h1 h2 => le_trans h1 h2) tasks
      · intro t
        refine filter_insertionSort _ _ ?_ tasks
        intro a b hpa hpb
        simp only [keyEq, beq_iff_eq] at hpa hpb
        exact le_of_eq (hpa.symm.trans hpb)
  | end_time_asc =>
      simp only [sortByKind, sort_tasks_end_time, keyRel]
      refine ⟨List.perm_insertionSort _ tasks, ?_, ?_⟩
      · exact sorted_insertionSort' _ (fun a b => le_total a.end_time b.end_time)
          (fun _ _ _ h1 h2 => le_trans h1 h2) tasks
      · intro t
        refine filter_insertionSort _ _ ?_ tasks
        intro a b hpa hpb
        simp only [keyEq, beq_iff_eq] at hpa hpb
        exact le_of_eq (hpa.symm.trans hpb)
  | task_type_asc =>
      simp only [sortByKind, sort_tasks_task_type, keyRel]
      refine ⟨List.perm_insertionSort _ tasks, ?_, ?_⟩
      · exact sorted_insertionSort' _ (fun a b => le_total a.task_type b.task_type)
          (fun _ _ _ h1 h2 => le_trans h1 h2) tasks
      · intro t
        refine filter_insertionSort _ _ ?_ tasks
        intro a b hpa hpb
        simp only [keyEq, beq_iff_eq] at hpa hpb
        exact le_of_eq (hpa.symm.trans hpb)
  | natural_end_time =>
      simp only [sortByKind, sortNatural, keyRel]
      refine ⟨List.perm_insertionSort _ tasks, ?_, ?_⟩
      · have hs : List.Sorted (fun a b => ¬ Task.lt b a)
            (tasks.insertionSort (fun a b => ¬ Task.lt b a)) := by
          refine sorted_insertionSort' _ (fun a b => ?_) (fun a b c h1 h2 => ?_) tasks
          · by_cases h : Task.lt b a
            · exact Or.inr (Nat.lt_asymm h)
            · exact Or.inl h
          · simp only [Task.lt, Nat.not_lt] at h1 h2 ⊢
            omega
        exact List.Pairwise.imp (fun h => Nat.not_lt.mp h) hs
      · intro t
        refine filter_insertionSort _ _ ?_ tasks
        intro a b hpa hpb
        simp only [keyEq, beq_iff_eq] at hpa hpb
        show ¬ Task.lt b a
        simp only [Task.lt, Nat.not_lt]
        exact le_of_eq (hpa.symm.trans hpb)
/-! ### The Deadline Monitor (C7) -/

lemma check_foldl_eq (now : Nat) :
    ∀ (tasks : List Task) (acc : List Reminder),
      tasks.foldl (fun reminders t =>
        let delta : Int := (t.deadline : Int) - (now : Int)
        if 0 ≤ delta ∧ delta ≤ 3600 then reminders ++ [Reminder.approaching t.name]
        else if delta < 0 then reminders ++ [Reminder.missed t.name]
        else reminders) acc
      = acc ++ tasks.filterMap (classifySpec now) := by
  intro tasks
  induction tasks with
  | nil => intro acc; simp
  | cons t ts ih =>
      intro acc
      simp only [List.foldl_cons, List.filterMap_cons, classifySpec]
      split_ifs with h1 h2 <;> rw [ih] <;> simp

/-- A task whose deadline is `d` seconds after the origin (window `[0, 1)`,
irrelevant to the Monitor). -/
def bdTask (d : Nat) : Task := ⟨"T", "Personal", 1, 0, 1, d⟩

/-- C7: `check_for_reminders` emits, in input task order, exactly one
Approaching message for each task with `0 ≤ deadline − now ≤ 1` hour (both
endpoints inclusive), exactly one Missed message for each task with
`deadline − now < 0`, and nothing otherwise — it equals the per-task
classification of the spec mapped over the input; in particular a deadline
exactly one hour away is Approaching and one of 1 hour + 1 second away
yields no message. -/
theorem C7_reminders_classification :
    (∀ (tasks : List Task) (now : Nat),
      check_for_reminders tasks now = tasks.filterMap (classifySpec now)) ∧
    check_for_reminders [bdTask 3600] 0 = [Reminder.approaching "T"] ∧
    check_for_reminders [bdTask 3601] 0 = [] := by
  refine ⟨?_, by decide, by decide⟩
  intro tasks now
  show tasks.foldl _ [] = _
  rw [check_foldl_eq now tasks []]
  exact List.nil_append _

/-! ### The Density Analyzer: slot-table invariants -/

/-- The count stored for key `k` (0 when absent); on tables with distinct
keys this is the dictionary lookup. -/
def slotCount : List (Nat × Nat) → Nat → Nat
  | [], _ => 0
  | (k', c) :: rest, k => if k' = k then c else slotCount rest k

lemma bucket_step_lt (I t : Nat) (hI : 0 < I) :
    bucketOf I t < bucketOf I (t + 60 * I) := by
  unfold bucketOf
  have h1 : t / 60 % 60 % I ≤ t / 60 % 60 := Nat.mod_le _ _
  have h2 : (t + 60 * I) / 60 % 60 % I < I := Nat.mod_lt _ hI
  omega

lemma bumpSlot_ne_nil (slots : List (Nat × Nat)) (k : Nat) : bumpSlot slots k ≠ [] := by
  cases slots with
  | nil => simp [bumpSlot]
  | cons kv rest =>
      rcases kv with ⟨k', c⟩
      by_cases h : k' = k <;> simp [bumpSlot, h]

lemma slotCount_bumpSlot_same (slots : List (Nat × Nat)) (k : Nat) :
    slotCount (bumpSlot slots k) k = slotCount slots k + 1 := by
  induction slots with
  | nil => simp [bumpSlot, slotCount]
  | cons kv rest ih =>
      rcases kv with ⟨k', c⟩
      by_cases h : k' = k <;> simp [bumpSlot, slotCount, h, ih]

lemma slotCount_bumpSlot_other (slots : List (Nat × Nat)) (k k' : Nat) (hne : k' ≠ k) :
    slotCount (bumpSlot slots k) k' = slotCount slots k' := by
  induction slots with
  | nil => simp [bumpSlot, slotCount, Ne.symm hne]
  | cons kv rest ih =>
      rcases kv with ⟨k0, c⟩
      by_cases h : k0 = k
      · subst h
        simp [bumpSlot, slotCount, Ne.symm hne]
      · by_cases h' : k0 = k' <;> simp [bumpSlot, slotCount, h, h', hne, ih]

lemma bumpSlot_values_pos (slots : List (Nat × Nat)) (k : Nat)
    (h : ∀ kv ∈ slots, 1 ≤ kv.2) : ∀ kv ∈ bumpSlot slots k, 1 ≤ kv.2 := by
  induction slots with
  | nil =>
      intro kv hkv
      simp [bumpSlot] at hkv
      simp [hkv]
  | cons hd rest ih =>
      rcases hd with ⟨k0, c⟩
      intro kv hkv
      by_cases hk : k0 = k
      · simp [bumpSlot, hk] at hkv
        rcases hkv with rfl | hkv
        · simp
        · exact h kv (List.mem_cons_of_mem _ hkv)
      · simp only [bumpSlot, if_neg hk, List.mem_cons] at hkv
        rcases hkv with rfl | hkv
        · exact h (k0, c) (List.mem_cons_self _ _)
        · exact ih (fun kv hkv => h kv (List.mem_cons_of_mem _ hkv)) kv hkv

lemma mem_keys_bumpSlot {slots : List (Nat × Nat)} {k x : Nat}
    (hx : x ∈ (bumpSlot slots k).map Prod.fst) :
    x = k ∨ x ∈ slots.map Prod.fst := by
  induction slots with
  | nil =>
      simp [bumpSlot] at hx
      exact Or.inl hx
  | cons hd rest ih =>
      rcases hd with ⟨k0, c⟩
      by_cases hk : k0 = k
      · simp only [bumpSlot, if_pos hk, List.map_cons, List.mem_cons] at hx
        rcases hx with rfl | hx
        · exact Or.inl hk
        · exact Or.inr (by simp [hx])
      · simp only [bumpSlot, if_neg hk, List.map_cons, List.mem_cons] at hx
        rcases hx with rfl | hx
        · exact Or.inr (by simp)
        · rcases ih hx with h | h
          · exact Or.inl h
          · exact Or.inr (by simp [h])

lemma keysNodup_bumpSlot (slots : List (Nat × Nat)) (k : Nat)
    (h : (slots.map Prod.fst).Nodup) : ((bumpSlot slots k).map Prod.fst).Nodup := by
  induction slots with
  | nil => simp [bumpSlot]
  | cons hd rest ih =>
      rcases hd with ⟨k0, c⟩
      simp only [List.map_cons, List.nodup_cons] at h
      by_cases hk : k0 = k
      · simp only [bumpSlot, if_pos hk, List.map_cons, List.nodup_cons]
        exact h
      · simp only [bumpSlot, if_neg hk, List.map_cons, List.nodup_cons]
        refine ⟨?_, ih h.2⟩
        intro hmem
        rcases mem_keys_bumpSlot hmem with rfl | hmem
        · exact hk rfl
        · exact h.1 hmem

lemma slotCount_eq_of_mem :
    ∀ {slots : List (Nat × Nat)}, (slots.map Prod.fst).Nodup →
      ∀ {kv : Nat × Nat}, kv ∈ slots → slotCount slots kv.1 = kv.2 := by
  intro slots
  induction slots with
  | nil => intro _ kv hkv; cases hkv
  | cons hd rest ih =>
      intro h kv hkv
      rcases hd with ⟨k0, c⟩
      simp only [List.map_cons, List.nodup_cons] at h
      rcases List.mem_cons.mp hkv with rfl | hkv
      · simp [slotCount]
      · have hne : k0 ≠ kv.1 := by
          intro heq
          exact h.1 (heq ▸ List.mem_map.mpr ⟨kv, hkv, rfl⟩)
        simp only [slotCount, if_neg hne]
        exact ih h.2 hkv

lemma walkAux_ne_nil (I : Nat) :
    ∀ (fuel s e : Nat) (slots : List (Nat × Nat)),
      slots ≠ [] → walkAux I fuel s e slots ≠ [] := by
  intro fuel
  induction fuel with
  | zero => intro s e slots h; simpa [walkAux] using h
  | succ fuel ih =>
      intro s e slots h
      rw [walkAux]
      by_cases hc : s < e ∧ 0 < I
      · rw [if_pos hc]
        exact ih _ _ _ (bumpSlot_ne_nil slots _)
      · rwa [if_neg hc]

lemma walkAux_count (I : Nat) (hI : 0 < I) :
    ∀ (fuel s e : Nat) (slots : List (Nat × Nat)) (k : Nat),
      slotCount (walkAux I fuel s e slots) k ≤ slotCount slots k + 1 ∧
      (k < bucketOf I s → slotCount (walkAux I fuel s e slots) k = slotCount slots k) := by
  intro fuel
  induction fuel with
  | zero => intro s e slots k; simp [walkAux]
  | succ fuel ih =>
      intro s e slots k
      rw [walkAux]
      by_cases hc : s < e ∧ 0 < I
      · rw [if_pos hc]
        have hstep := bucket_step_lt I s hI
        rcases ih (s + 60 * I) e (bumpSlot slots (bucketOf I s)) k with ⟨ih1, ih2⟩
        constructor
        · by_cases hk : k = bucketOf I s
          · subst hk
            rw [ih2 hstep, slotCount_bumpSlot_same]
          · calc slotCount (walkAux I fuel (s + 60 * I) e (bumpSlot slots (bucketOf I s))) k
                ≤ slotCount (bumpSlot slots (bucketOf I s)) k + 1 := ih1
              _ = slotCount slots k + 1 := by rw [slotCount_bumpSlot_other _ _ _ hk]
        · intro hklt
          have hk : k ≠ bucketOf I s := Nat.ne_of_lt hklt
          rw [ih2 (lt_trans hklt hstep), slotCount_bumpSlot_other _ _ _ hk]
      · rw [if_neg hc]
        exact ⟨Nat.le_succ _, fun _ => rfl⟩

lemma walkAux_values_pos (I : Nat) :
    ∀ (fuel s e : Nat) (slots : List (Nat × Nat)),
      (∀ kv ∈ slots, 1 ≤ kv.2) → ∀ kv ∈ walkAux I fuel s e slots, 1 ≤ kv.2 := by
  intro fuel
  induction fuel with
  | zero => intro s e slots h; simpa [walkAux] using h
  | succ fuel ih =>
      intro s e slots h
      rw [walkAux]
      by_cases hc : s < e ∧ 0 < I
      · rw [if_pos hc]
        exact ih _ _ _ (bumpSlot_values_pos slots _ h)
      · rwa [if_neg hc]

lemma walkAux_keysNodup (I : Nat) :
    ∀ (fuel s e : Nat) (slots : List (Nat × Nat)),
      (slots.map Prod.fst).Nodup → ((walkAux I fuel s e slots).map Prod.fst).Nodup := by
  intro fuel
  induction fuel with
  | zero => intro s e slots h; simpa [walkAux] using h
  | succ fuel ih =>
      intro s e slots h
      rw [walkAux]
      by_cases hc : s < e ∧ 0 < I
      · rw [if_pos hc]
        exact ih _ _ _ (keysNodup_bumpSlot slots _ h)
      · rwa [if_neg hc]

lemma walkTask_ne_nil (I s e : Nat) (slots : List (Nat × Nat)) (h : slots ≠ []) :
    walkTask I s e slots ≠ [] :=
  walkAux_ne_nil I _ s e slots h

lemma walkTask_ne_nil_of_wf (I s e : Nat) (slots : List (Nat × Nat))
    (hI : 0 < I) (hse : s < e) : walkTask I s e slots ≠ [] := by
  unfold walkTask
  rcases hfuel : e - s with - | fuel
  · omega
  · rw [walkAux, if_pos ⟨hse, hI⟩]
    exact walkAux_ne_nil I _ _ _ _ (bumpSlot_ne_nil slots _)

lemma foldl_walk_facts (I : Nat) (hI : 0 < I) :
    ∀ (ts : List Task) (acc : List (Nat × Nat)),
      ((∀ kv ∈ acc, 1 ≤ kv.2) →
        ∀ kv ∈ ts.foldl (fun a t => walkTask I t.start_time t.end_time a) acc, 1 ≤ kv.2) ∧
      ((acc.map Prod.fst).Nodup →
        ((ts.foldl (fun a t => walkTask I t.start_time t.end_time a) acc).map Prod.fst).Nodup) ∧
      (∀ k, slotCount (ts.foldl (fun a t => walkTask I t.start_time t.end_time a) acc) k ≤
        slotCount acc k + ts.length) := by
  intro ts
  induction ts with
  | nil => intro acc; exact ⟨fun h => h, fun h => h, fun k => Nat.le_refl _⟩
  | cons t ts ih =>
      intro acc
      simp only [List.foldl_cons, List.length_cons]
      rcases ih (walkTask I t.start_time t.end_time acc) with ⟨ih1, ih2, ih3⟩
      refine ⟨?_, ?_, ?_⟩
      · intro h
        exact ih1 (walkAux_values_pos I _ _ _ acc h)
      · intro h
        exact ih2 (walkAux_keysNodup I _ _ _ acc h)
      · intro k
        have hw := (walkAux_count I hI (t.end_time - t.start_time) t.start_time t.end_time acc k).1
        have := ih3 k
        unfold walkTask at this ⊢
        omega

lemma foldl_walk_ne_nil (I : Nat) :
    ∀ (ts : List Task) (acc : List (Nat × Nat)), acc ≠ [] →
      ts.foldl (fun a t => walkTask I t.start_time t.end_time a) acc ≠ [] := by
  intro ts
  induction ts with
  | nil => intro acc h; simpa using h
  | cons t ts ih =>
      intro acc h
      simp only [List.foldl_cons]
      exact ih _ (walkTask_ne_nil I _ _ acc h)

lemma table_ne_nil (tasks : List Task) (I : Nat) (hI : 0 < I) (hne : tasks ≠ [])
    (hwf : ∀ t ∈ tasks, t.start_time < t.end_time) : busySlotsTable tasks I ≠ [] := by
  rcases tasks with - | ⟨t, ts⟩
  · exact absurd rfl hne
  · unfold busySlotsTable
    rw [List.foldl_cons]
    refine foldl_walk_ne_nil I ts _ ?_
    exact walkTask_ne_nil_of_wf I _ _ [] hI (hwf t (List.mem_cons_self _ _))

lemma maxScan_spec :
    ∀ (rest : List (Nat × Nat)) (b : Nat × Nat),
      ∃ pre post, b :: rest = pre ++ (maxScan b rest) :: post ∧
        (∀ kv ∈ pre, kv.2 < (maxScan b rest).2) ∧
        (∀ kv ∈ b :: rest, kv.2 ≤ (maxScan b rest).2) := by
  intro rest
  induction rest with
  | nil =>
      intro b
      exact ⟨[], [], by simp [maxScan], by simp, by simp [maxScan]⟩
  | cons kv rest ih =>
      intro b
      rw [maxScan]
      by_cases hb : b.2 < kv.2
      · rw [if_pos hb]
        rcases ih kv with ⟨pre, post, heq, hpre, hub⟩
        refine ⟨b :: pre, post, ?_, ?_, ?_⟩
        · rw [List.cons_append, ← heq]
        · intro x hx
          rcases List.mem_cons.mp hx with rfl | hx
          · exact lt_of_lt_of_le hb (hub kv (List.mem_cons_self _ _))
          · exact hpre x hx
        · intro x hx
          rcases List.mem_cons.mp hx with rfl | hx
          · exact le_of_lt (lt_of_lt_of_le hb (hub kv (List.mem_cons_self _ _)))
          · exact hub x hx
      · rw [if_neg hb]
        rcases ih b with ⟨pre, post, heq, hpre, hub⟩
        rcases pre with - | ⟨p0, pre'⟩
        · rw [List.nil_append] at heq
          injection heq with h1 h2
          refine ⟨[], kv :: rest, ?_, by simp, ?_⟩
          · rw [List.nil_append, ← h1]
          · intro x hx
            rcases List.mem_cons.mp hx with rfl | hx
            · exact hub x (List.mem_cons_self _ _)
            · rcases List.mem_cons.mp hx with rfl | hx
              · exact le_trans (Nat.le_of_not_lt hb) (hub b (List.mem_cons_self _ _))
              · exact hub x (List.mem_cons_of_mem _ (h2 ▸ hx))
        · rw [List.cons_append] at heq
          injection heq with h1 h2
          refine ⟨b :: kv :: pre', post, ?_, ?_, ?_⟩
          · rw [List.cons_append, List.cons_append, ← h2]
          · intro x hx
            rcases List.mem_cons.mp hx with rfl | hx
            · exact h1 ▸ hpre p0 (List.mem_cons_self _ _)
            · rcases List.mem_cons.mp hx with rfl | hx
              · exact lt_of_le_of_lt (Nat.le_of_not_lt hb)
                  (h1 ▸ hpre p0 (List.mem_cons_self _ _))
              · exact hpre x (List.mem_cons_of_mem _ hx)
          · intro x hx
            rcases List.mem_cons.mp hx with rfl | hx
            · exact hub x (List.mem_cons_self _ _)
            · rcases List.mem_cons.mp hx with rfl | hx
              · exact le_trans (Nat.le_of_not_lt hb) (hub b (List.mem_cons_self _ _))
              · exact hub x (List.mem_cons_of_mem _ hx)

lemma maxScan_mem (rest : List (Nat × Nat)) (b : Nat × Nat) :
    maxScan b rest ∈ b :: rest := by
  rcases maxScan_spec rest b with ⟨pre, post, heq, -, -⟩
  rw [heq]
  exact List.mem_append.mpr (Or.inr (List.mem_cons_self _ _))

/-! ### Density Analyzer claims (C4, C8, C10) -/

/-- A task occupying only the 10:00–10:30 bucket; listed first. -/
def lateTask : Task := ⟨"L", "Personal", 1, 36000, 37800, 0⟩

/-- A task occupying only the 9:00–9:30 bucket; listed second. -/
def earlyTask : Task := ⟨"E", "Personal", 1, 32400, 34200, 0⟩

/-- C4 counterexample: with the 10:00 task listed before the 9:00 task, both
buckets have the maximal count 1, yet `analyze_busy_slots` returns the
10:00 bucket (36000), not the earliest maximal bucket (32400): `max` scans
the dict in insertion order, not timestamp order. -/
theorem C4_counterexample :
    analyze_busy_slots [lateTask, earlyTask] 30 = some (36000, 1) ∧
    (32400, 1) ∈ busySlotsTable [lateTask, earlyTask] 30 ∧
    32400 < 36000 ∧
    (∀ kv ∈ busySlotsTable [lateTask, earlyTask] 30, kv.2 ≤ 1) := by
  decide

/-- C4 amended: among the buckets of maximal count, `analyze_busy_slots`
returns the first one in the slot table's insertion order (the order buckets
are first touched while scanning tasks in input order, each task walked
chronologically), together with that maximal count: every entry before the
returned one in the table counts strictly less, and no entry counts more. -/
theorem C4_amended_first_max_in_insertion_order (tasks : List Task) (I : Nat)
    (hI : 0 < I) (hne : tasks ≠ [])
    (hwf : ∀ t ∈ tasks, t.start_time < t.end_time) :
    ∃ k c pre post,
      analyze_busy_slots tasks I = some (k, c) ∧
      busySlotsTable tasks I = pre ++ (k, c) :: post ∧
      (∀ kv ∈ pre, kv.2 < c) ∧
      (∀ kv ∈ busySlotsTable tasks I, kv.2 ≤ c) := by
  have htne := table_ne_nil tasks I hI hne hwf
  cases htab : busySlotsTable tasks I with
  | nil => exact absurd htab htne
  | cons kv rest =>
      rcases maxScan_spec rest kv with ⟨pre, post, heq, hpre, hub⟩
      refine ⟨(maxScan kv rest).1, (maxScan kv rest).2, pre, post, ?_, ?_, hpre, ?_⟩
      · unfold analyze_busy_slots
        rw [htab]
      · rw [Prod.mk.eta]
        exact heq
      · intro x hx
        exact hub x hx

/-- Witness for C4's amended theorem at a concrete input. -/
theorem C4_amended_first_max_in_insertion_order_witness :
    ∃ k c pre post,
      analyze_busy_slots [lateTask, earlyTask] 30 = some (k, c) ∧
      busySlotsTable [lateTask, earlyTask] 30 = pre ++ (k, c) :: post ∧
      (∀ kv ∈ pre, kv.2 < c) ∧
      (∀ kv ∈ busySlotsTable [lateTask, earlyTask] 30, kv.2 ≤ c) :=
  C4_amended_first_max_in_insertion_order [lateTask, earlyTask] 30
    (by decide) (by decide) (by decide)

/-- C8: `analyze_busy_slots` on an empty task list fails with an explicit
error (modelled as `none`, no slot/count pair), while on nonempty
well-formed input it always succeeds; the Sorter, Scheduler, Monitor and
Locator are total functions of this development and never fail. -/
theorem C8_empty_fails_nonempty_succeeds :
    (∀ I : Nat, analyze_busy_slots [] I = none) ∧
    (∀ (tasks : List Task) (I : Nat), 0 < I → tasks ≠ [] →
      (∀ t ∈ tasks, t.start_time < t.end_time) →
      (analyze_busy_slots tasks I).isSome = true) := by
  constructor
  · intro I
    rfl
  · intro tasks I hI hne hwf
    have htne := table_ne_nil tasks I hI hne hwf
    unfold analyze_busy_slots
    cases htab : busySlotsTable tasks I with
    | nil => exact absurd htab htne
    | cons kv rest => rfl

/-- Witness for C8 at a concrete input. -/
theorem C8_empty_fails_nonempty_succeeds_witness :
    (analyze_busy_slots [earlyTask] 30).isSome = true :=
  C8_empty_fails_nonempty_succeeds.2 [earlyTask] 30 (by decide) (by decide) (by decide)

/-- C10: on nonempty well-formed input with a positive interval, the count
returned by `analyze_busy_slots` satisfies `1 ≤ count ≤ tasks.length`: a
single task's stepped timestamps land in strictly increasing buckets, so
each task increments any one bucket at most once. -/
theorem C10_busiest_count_bounds (tasks : List Task) (I : Nat) (hI : 0 < I)
    (hne : tasks ≠ []) (hwf : ∀ t ∈ tasks, t.start_time < t.end_time) :
    ∃ k c, analyze_busy_slots tasks I = some (k, c) ∧ 1 ≤ c ∧ c ≤ tasks.length := by
  have htne := table_ne_nil tasks I hI hne hwf
  rcases foldl_walk_facts I hI tasks [] with ⟨hpos, hnodup, hcount⟩
  cases htab : busySlotsTable tasks I with
  | nil => exact absurd htab htne
  | cons kv rest =>
      have hmem : maxScan kv rest ∈ busySlotsTable tasks I := htab ▸ maxScan_mem rest kv
      refine ⟨(maxScan kv rest).1, (maxScan kv rest).2, ?_, ?_, ?_⟩
      · unfold analyze_busy_slots
        rw [htab]
      · exact hpos (fun kv h => absurd h (List.not_mem_nil kv)) _ hmem
      · have hkeys := hnodup (by simp)
        have heqc : slotCount (List.foldl (fun a t => walkTask I t.start_time t.end_time a)
            [] tasks) (maxScan kv rest).1 = (maxScan kv rest).2 :=
          slotCount_eq_of_mem hkeys hmem
        have hle := hcount (maxScan kv rest).1
        simp only [slotCount] at hle
        omega

/-- Witness for C10 at a concrete input. -/
theorem C10_busiest_count_bounds_witness :
    ∃ k c, analyze_busy_slots [lateTask, earlyTask] 30 = some (k, c) ∧
      1 ≤ c ∧ c ≤ ([lateTask, earlyTask] : List Task).length :=
  C10_busiest_count_bounds [lateTask, earlyTask] 30 (by decide) (by decide) (by decide)

/-! ### The Locator (C9) -/

/-- A task named `"Task A"`, the spec's case-insensitivity example. -/
def taskA : Task := ⟨"Task A", "Personal", 3, 0, 3600, 7200⟩

/-- C9: `find_by_name` returns the first task in input order matching the
query under case-insensitive exact comparison, and `none` (an absent value,
not a fault) when no task matches; the query "task a" matches a task named
"Task A". -/
theorem C9_find_by_name_first_case_insensitive :
    ∀ (tasks : List Task) (name : String),
      (find_by_name tasks name = none ↔ ∀ t ∈ tasks, nameMatches name t = false) ∧
      (∀ t, find_by_name tasks name = some t →
        nameMatches name t = true ∧
        ∃ pre post, tasks = pre ++ t :: post ∧ ∀ u ∈ pre, nameMatches name u = false) ∧
      find_by_name [taskA] "task a" = some taskA := by
  intro tasks name
  refine ⟨?_, ?_, by decide⟩
  · simp [find_by_name, List.find?_eq_none]
  · intro t ht
    unfold find_by_name at ht
    rw [List.find?_eq_some] at ht
    rcases ht with ⟨hp, pre, post, rfl, hall⟩
    refine ⟨hp, pre, post, rfl, ?_⟩
    intro u hu
    have := hall u hu
    simpa using this

/-- Witness for C9 at a concrete input. -/
theorem C9_find_by_name_first_case_insensitive_witness :
    nameMatches "task a" taskA = true ∧
    ∃ pre post, ([taskA] : List Task) = pre ++ taskA :: post ∧
      ∀ u ∈ pre, nameMatches "task a" u = false :=
  (C9_find_by_name_first_case_insensitive [taskA] "task a").2.1 taskA (by decide)

end TaskRemainder
